import Mathlib

/-!
Verification of the API-spec metadata generator
(`zato-server/src/zato/server/apispec/__init__.py`).

The Python module is shallowly embedded below.  Python strings are modelled
as lists of characters (`Str`); Python dictionaries that the generator
mutates are modelled as association lists whose list order stands for the
dictionary's iteration order; operations that can raise (`IndexError` on
`s[-1]` or `split[0]`, `KeyError` on `d[k]`) return `Option`.  The external
collaborators that the module imports (`docformatter.format_docstring`,
`is_bool`, `is_int`, `SIO_TYPE_MAP`) are passed in as parameters of a `Ctx`
record, mirroring the fact that the module reads them but does not define
them.  Docstrings are modelled over newline-terminated lines (the embedding
splits lines on the newline character).
-/

namespace Apispec

/-- Python strings, modelled as lists of characters. -/
abbrev Str := List Char

/-- The whitespace test used by Python's `str.strip` / `str.rstrip`. -/
def pyIsSpace (c : Char) : Bool :=
  c = ' ' || c = '\t' || c = '\n' || c = '\r' || c = '\x0b' || c = '\x0c'

/-- Remove trailing characters satisfying `p` (Python `rstrip`). -/
def dropTrailWhile (p : Char → Bool) (s : Str) : Str :=
  (s.reverse.dropWhile p).reverse

/-- Python `str.strip()` with no argument: trim whitespace on both sides. -/
def pyStrip (s : Str) : Str :=
  dropTrailWhile pyIsSpace (s.dropWhile pyIsSpace)

/-- Python `str.rstrip()` with no argument. -/
def pyRstrip (s : Str) : Str :=
  dropTrailWhile pyIsSpace s

/-- Split a string at every newline; the result always has one more piece
than the number of newlines (Python `s.split('\n')`). -/
def splitOnNl : Str → List Str
  | [] => [[]]
  | c :: rest =>
    if c = '\n' then [] :: splitOnNl rest
    else
      match splitOnNl rest with
      | [] => [[c]]
      | h :: t => (c :: h) :: t

/-- Python `str.splitlines()` over newline-terminated lines: an empty string
yields no lines, and a trailing newline does not produce a final empty
line. -/
def pySplitlines (s : Str) : List Str :=
  if s = [] then []
  else if s.getLast? = some '\n' then (splitOnNl s).dropLast
  else splitOnNl s

/-- Python `'\n'.join(lines)`. -/
def joinNl : List Str → Str
  | [] => []
  | [x] => x
  | x :: y :: t => x ++ '\n' :: joinNl (y :: t)

/-- Python `sorted` on a list of strings: lexicographic by code point.
A stable sort; for strings the sorted permutation is unique. -/
def pySorted (l : List Str) : List Str :=
  List.insertionSort (fun a b : Str => a ≤ b) l

/-- The `Docstring` value object of the module: summary, description and
normalized full text, each defaulting to the empty string. -/
structure Docstring where
  summary : Str
  description : Str
  full : Str
deriving Repr, DecidableEq

/-- The state `Docstring.__init__` leaves behind: all three fields empty. -/
def Docstring.empty : Docstring := ⟨[], [], []⟩

/-- Source lines 161-174: take the raw docstring, insert a blank separator
line after the first line when the docstring has several lines, wrap the
result in double quotes, run the external `format_docstring` (`fmt`), and
strip leading and trailing double-quote characters (the lstrip of the
quote set, then the rstrip of the quote set, as in line 174). -/
def normalizedFull (fmt : Str → Str) (doc0 : Str) : Str :=
  let split := pySplitlines doc0
  let doc1 := if 1 < split.length then joinNl (split.take 1 ++ [[]] ++ split.drop 1) else doc0
  let quoted := '"' :: (doc1 ++ ['"'])
  dropTrailWhile (fun c => c = '"') ((fmt quoted).dropWhile (fun c => c = '"'))

/-- Source lines 185-186: if the description is truthy and the full text ends
in a period that differs from the description's last character, drop that
period.  The two `[-1]` indexings are modelled as `getLast?`, with `none`
standing for `IndexError`. -/
def dropPeriodVsDesc (full : Str) (description : Str) : Option Str :=
  if description = [] then some full
  else
    match full.getLast? with
    | none => none
    | some c =>
      if c = '.' then
        match description.getLast? with
        | none => none
        | some d => if c ≠ d then some full.dropLast else some full
      else some full

/-- Source lines 175-181: split the full docstring into lines; if there is
more than one line and the second is empty, the description is the join of
the lines from index 2 on, else the empty string. -/
def descriptionFrom (full : Str) : Str :=
  let dlines := pySplitlines full
  if 1 < dlines.length ∧ dlines[1]? = some [] then joinNl (dlines.drop 2) else []

/-- Source lines 155-193, `ServiceInfo.set_summary_desc`.  `fmt` is the
external `docformatter.format_docstring` call of line 173, applied to the
quoted docstring; `doc?` is the class docstring (`none` for a class without a
docstring).  Every Python operation that could raise returns `none` here:
`split[0]` on an empty line list, and the unguarded `full_docstring[-1]`
indexings of the trailing-period removal. -/
def setSummaryDesc (fmt : Str → Str) (doc? : Option Str) : Option Docstring :=
  match doc? with
  | none => some Docstring.empty
  | some doc0 =>
    if doc0 = [] then some Docstring.empty
    else
      match (pySplitlines doc0).head? with
      | none => none
      | some summary =>
        let full1 := normalizedFull fmt doc0
        let description := descriptionFrom full1
        if full1 = [] then
          some ⟨pyStrip summary, description, pyRstrip full1⟩
        else
          match dropPeriodVsDesc full1 description with
          | none => none
          | some f1 =>
            if summary = [] then
              some ⟨pyStrip summary, description, pyRstrip f1⟩
            else
              match f1.getLast? with
              | none => none
              | some c =>
                let f2 := if c = '.' ∧ summary.getLast? ≠ some c then f1.dropLast else f1
                some ⟨pyStrip summary, description, pyRstrip f2⟩

/-- The `invokes` class attribute of a service class: absent, a single
string, or a list/tuple of strings (a getattr with a `none` default). -/
inductive InvokesDecl where
  | absent
  | str (s : Str)
  | pylist (l : List Str)
deriving Repr, DecidableEq

/-- Source lines 85-100, `ServiceInfo._add_services_from_invokes`: a truthy
string is appended as one element, a truthy list/tuple is extended
element-wise, anything falsy contributes nothing. -/
def addServicesFromInvokes : InvokesDecl → List Str
  | .absent => []
  | .str s => if s = [] then [] else [s]
  | .pylist l => if l = [] then [] else l

/-- A declared SimpleIO parameter: a plain string, an `AsIs` instance, or an
instance of some other wrapper class carrying a name. -/
inductive Param where
  | str (name : Str)
  | asIs (name : Str)
  | typed (cls : Str) (name : Str)
deriving Repr, DecidableEq

/-- `param if isinstance(param, basestring) else param.name`. -/
def Param.paramName : Param → Str
  | .str n => n
  | .asIs n => n
  | .typed _ n => n

/-- `isinstance(param, AsIs)`. -/
def Param.isAsIs : Param → Bool
  | .asIs _ => true
  | _ => false

/-- The key `param.__class__` used for `api_spec_info.map` lookups. -/
def Param.clsName : Param → Str
  | .str _ => ('s' :: 't' :: 'r' :: [])
  | .asIs _ => ('A' :: 's' :: 'I' :: 's' :: [])
  | .typed c _ => c

/-- One entry of the external `SIO_TYPE_MAP`: a schema dialect with its
default, boolean and integer (type, subtype) pairs and its concrete type
map (`try: api_spec_info.map[param.__class__] except KeyError`). -/
structure ApiSpecInfo where
  name : Str
  DEFAULT : Str × Str
  BOOLEAN : Str × Str
  INTEGER : Str × Str
  typeMap : Str → Option (Str × Str)

/-- Source lines 120-140, the parameter classifier inside
`ServiceInfo._add_simple_io`: the `AsIs` test, then `is_bool`, then
`is_int`, then the concrete type map with the dialect default as fallback.
`isBool` and `isInt` are the external `is_bool` / `is_int` helpers with
their suffix/value tables already applied. -/
def classifyParam (isBool : Param → Str → Bool) (isInt : Str → Bool)
    (info : ApiSpecInfo) (param : Param) : Str × Str :=
  let pname := param.paramName
  if param.isAsIs then info.DEFAULT
  else if isBool param pname then info.BOOLEAN
  else if isInt pname then info.INTEGER
  else
    match info.typeMap param.clsName with
    | some ti => ti
    | none => info.DEFAULT

/-- The `SimpleIO` class attribute of a service class; absent attribute
lists default to `[]` as in `getattr(sio, param_list_name, [])`. -/
structure SioDecl where
  request_elem : Option Str
  response_elem : Option Str
  input_required : List Param
  output_required : List Param
  input_optional : List Param
  output_optional : List Param
deriving Repr, DecidableEq

/-- One classified parameter: `_param_info` with name, type and subtype. -/
structure ParamInfo where
  name : Str
  type : Str
  subtype : Str
deriving Repr, DecidableEq

/-- The flattened per-dialect record produced by `SimpleIO(...).to_bunch()`. -/
structure SimpleIOBunch where
  input_required : List ParamInfo
  output_required : List ParamInfo
  input_optional : List ParamInfo
  output_optional : List ParamInfo
  request_elem : Option Str
  response_elem : Option Str
  spec_name : Str
deriving Repr, DecidableEq

/-- The externals the module imports: the dialect list `SIO_TYPE_MAP`, the
`is_bool` / `is_int` heuristics, and `docformatter.format_docstring`. -/
structure Ctx where
  sioTypeMap : List ApiSpecInfo
  isBool : Param → Str → Bool
  isInt : Str → Bool
  fmt : Str → Str

/-- Python dictionaries built by the generator, as association lists; the
list order is the dictionary's iteration order. -/
abbrev AList (α : Type) := List (Str × α)

/-- Dictionary write `d[k] = v`: overwrite in place, or append a new key. -/
def alSet {α : Type} (k : Str) (v : α) : AList α → AList α
  | [] => [(k, v)]
  | (k', v') :: rest => if k' = k then (k, v) :: rest else (k', v') :: alSet k v rest

/-- Dictionary read `d.get(k)`. -/
def alGet {α : Type} (k : Str) : AList α → Option α
  | [] => none
  | (k', v) :: rest => if k' = k then some v else alGet k rest

/-- Classify one `param_list` group in declaration order. -/
def classifyGroup (ctx : Ctx) (info : ApiSpecInfo) (params : List Param) : List ParamInfo :=
  params.map (fun p =>
    let ti := classifyParam ctx.isBool ctx.isInt info p
    ⟨p.paramName, ti.1, ti.2⟩)

/-- Build the flattened dialect record for one `api_spec_info` entry
(source lines 110-145). -/
def mkSimpleIOBunch (ctx : Ctx) (info : ApiSpecInfo) (sio : SioDecl) : SimpleIOBunch :=
  { input_required := classifyGroup ctx info sio.input_required
    output_required := classifyGroup ctx info sio.output_required
    input_optional := classifyGroup ctx info sio.input_optional
    output_optional := classifyGroup ctx info sio.output_optional
    request_elem := sio.request_elem
    response_elem := sio.response_elem
    spec_name := info.name }

/-- Source lines 104-145, `ServiceInfo._add_simple_io`: nothing happens
without a `SimpleIO` attribute; otherwise one record per dialect of
`SIO_TYPE_MAP`, keyed by dialect name. -/
def addSimpleIO (ctx : Ctx) (sio? : Option SioDecl) : AList SimpleIOBunch :=
  match sio? with
  | none => []
  | some sio =>
    ctx.sioTypeMap.foldl (fun acc info => alSet info.name (mkSimpleIOBunch ctx info sio) acc) []

/-- The attributes the generator reads off a service class: `invokes`,
`SimpleIO` and `__doc__`. -/
structure ServiceClass where
  invokes : InvokesDecl
  sio : Option SioDecl
  doc : Option Str
deriving Repr, DecidableEq

/-- The fields of a fully parsed `ServiceInfo` instance. -/
structure ServiceInfo where
  name : Str
  service_class : ServiceClass
  simple_io : AList SimpleIOBunch
  docstring : Docstring
  invokes : List Str
  invoked_by : List Str
deriving Repr, DecidableEq

/-- `ServiceInfo.__init__` followed by its `parse()` call (source lines
63-81): populate `invokes`, `simple_io` and `docstring`; `invoked_by`
starts empty and is only filled in by `Generator.parse`.  `none` if
`set_summary_desc` raises. -/
def mkServiceInfo (ctx : Ctx) (name : Str) (cls : ServiceClass) : Option ServiceInfo :=
  match setSummaryDesc ctx.fmt cls.doc with
  | none => none
  | some ds =>
    some { name := name
           service_class := cls
           simple_io := addSimpleIO ctx cls.sio
           docstring := ds
           invokes := addServicesFromInvokes cls.invokes
           invoked_by := [] }

/-- One value of the external service store: the declared service name and
the service class. -/
structure Details where
  name : Str
  service_class : ServiceClass
deriving Repr, DecidableEq

/-- The `Generator` object state: the registry snapshot and filter given to
`__init__`, and the three dictionaries `services`, `invokes` and
`invoked_by` that `parse` mutates. -/
structure Generator where
  service_store_services : List (Str × Details)
  filter : Option Str
  services : AList ServiceInfo
  invokes : AList (List Str)
  invoked_by : AList (List Str)
deriving Repr, DecidableEq

/-- `Generator.__init__`: empty dictionaries. -/
def mkGenerator (registry : List (Str × Details)) (filter : Option Str) : Generator :=
  { service_store_services := registry
    filter := filter
    services := []
    invokes := []
    invoked_by := [] }

/-- First loop of `Generator.parse` (source lines 240-244): build a
`ServiceInfo` for every registry entry whose implementation name does not
start with the ignore prefix, keyed by the declared service name. -/
def parseLoop1 (ctx : Ctx) (pfx : Str) :
    List (Str × Details) → AList ServiceInfo → Option (AList ServiceInfo)
  | [], acc => some acc
  | (impl, d) :: rest, acc =>
    if pfx.isPrefixOf impl then parseLoop1 ctx pfx rest acc
    else
      match mkServiceInfo ctx d.name d.service_class with
      | none => none
      | some info => parseLoop1 ctx pfx rest (alSet info.name info acc)

/-- Second loop (source lines 246-247): `self.invokes[name] = info.invokes`. -/
def parseLoop2 (services : AList ServiceInfo) (inv : AList (List Str)) : AList (List Str) :=
  services.foldl (fun acc p => alSet p.1 p.2.invokes acc) inv

/-- `self.invoked_by.setdefault(target, []).append(source)`. -/
def alAppendOne (target : Str) (source : Str) (b : AList (List Str)) : AList (List Str) :=
  match alGet target b with
  | some l => alSet target (l ++ [source]) b
  | none => b ++ [(target, [source])]

/-- Inner loop of the third loop: one source, all its targets in order. -/
def parseLoop3Inner (source : Str) : List Str → AList (List Str) → AList (List Str)
  | [], b => b
  | t :: ts, b => parseLoop3Inner source ts (alAppendOne t source b)

/-- Third loop (source lines 249-252): accumulate reverse edges. -/
def parseLoop3 : AList (List Str) → AList (List Str) → AList (List Str)
  | [], b => b
  | (s, ts) :: rest, b => parseLoop3 rest (parseLoop3Inner s ts b)

/-- Fourth loop (source lines 254-255):
`info.invoked_by = self.invoked_by.get(name, [])`. -/
def parseLoop4 (invokedBy : AList (List Str)) (services : AList ServiceInfo) : AList ServiceInfo :=
  services.map (fun p => (p.1, { p.2 with invoked_by := (alGet p.1 invokedBy).getD [] }))

/-- `Generator.parse` (source lines 238-255): the four loops, threading the
generator's persistent dictionaries. -/
def Generator.parse (ctx : Ctx) (pfx : Str) (g : Generator) : Option Generator :=
  match parseLoop1 ctx pfx g.service_store_services g.services with
  | none => none
  | some services1 =>
    let invokes1 := parseLoop2 services1 g.invokes
    let invokedBy1 := parseLoop3 invokes1 g.invoked_by
    let services2 := parseLoop4 invokedBy1 services1
    some { g with services := services2, invokes := invokes1, invoked_by := invokedBy1 }

/-- One flattened output record (`item.toDict()`). -/
structure Record where
  name : Str
  docs : Docstring
  invokes : List Str
  invoked_by : List Str
  simple_io : AList SimpleIOBunch
deriving Repr, DecidableEq

/-- Source lines 220-232: build one output item from a `ServiceInfo`. -/
def toRecord (info : ServiceInfo) : Record :=
  { name := info.name
    docs := info.docstring
    invokes := pySorted info.invokes
    invoked_by := pySorted info.invoked_by
    simple_io := info.simple_io }

/-- `if self.filter and name != self.filter: continue` — skip only when the
filter is truthy and differs from the name. -/
def skipByFilter (filter : Option Str) (name : Str) : Bool :=
  match filter with
  | none => false
  | some f => !(f = []) && !(name = f)

/-- The output loop of `get_info` over the sorted service names; the
dictionary read `self.services[name]` is modelled as a fallible lookup. -/
def emitRecords (filter : Option Str) (services : AList ServiceInfo) :
    List Str → Option (List Record)
  | [] => some []
  | n :: ns =>
    if skipByFilter filter n then emitRecords filter services ns
    else
      match alGet n services with
      | none => none
      | some info =>
        match emitRecords filter services ns with
        | none => none
        | some rest => some (toRecord info :: rest)

/-- `Generator.get_info` (source lines 209-234): parse, then emit the
records in lexicographic name order.  Returns the record list together
with the mutated generator, whose dictionaries survive into later calls. -/
def Generator.get_info (ctx : Ctx) (pfx : Str) (g : Generator) :
    Option (List Record × Generator) :=
  match g.parse ctx pfx with
  | none => none
  | some g' =>
    match emitRecords g'.filter g'.services (pySorted (g'.services.map Prod.fst)) with
    | none => none
    | some out => some (out, g')

/-! ### Derived notions used by the theorems -/

/-- The specification's description rule, following its words: split the
normalized full string into lines; if there is more than one line and line 1
(0-indexed) is blank, the description is the join of the lines from index 2
onward; otherwise it is empty. -/
def descriptionPerSpec (full : Str) : Str :=
  let lines := pySplitlines full
  if 1 < lines.length ∧ lines[1]? = some [] then joinNl (lines.drop 2) else []

/-- The keys of a dictionary, in iteration order. -/
def alKeys {α : Type} (m : AList α) : List Str := m.map Prod.fst

/-- Replay a list of dictionary writes over a dictionary. -/
def applyWrites {α : Type} (ws : List (Str × α)) (m : AList α) : AList α :=
  ws.foldl (fun acc p => alSet p.1 p.2 acc) m

/-- The value of the last write to key `k` in a write list, if any. -/
def lastWrite {α : Type} (k : Str) : List (Str × α) → Option α
  | [] => none
  | (a, u) :: ws =>
    match lastWrite k ws with
    | some v => some v
    | none => if a = k then some u else none

/-- The writes the first loop of `Generator.parse` performs, in order: one
`(declared name, ServiceInfo)` pair per retained registry entry. -/
def writesOf (ctx : Ctx) (pfx : Str) : List (Str × Details) → Option (List (Str × ServiceInfo))
  | [] => some []
  | (impl, d) :: rest =>
    if pfx.isPrefixOf impl then writesOf ctx pfx rest
    else
      match mkServiceInfo ctx d.name d.service_class with
      | none => none
      | some info =>
        match writesOf ctx pfx rest with
        | none => none
        | some ws => some ((info.name, info) :: ws)

/-- The writes the second loop performs: each service's forward edges. -/
def invWrites (services : AList ServiceInfo) : List (Str × List Str) :=
  services.map (fun p => (p.1, p.2.invokes))

/-- All the sources the third loop appends to target `t`, in order (one
occurrence per occurrence of `t` in a source's target list). -/
def srcsOf (t : Str) : AList (List Str) → List Str
  | [] => []
  | (s, ts) :: rest => (ts.filter (fun x => x = t)).map (fun _ => s) ++ srcsOf t rest

/-- Append on an optional accumulator entry: absent stays absent when there
is nothing to append, otherwise the entry (defaulting to empty) grows. -/
def extAppend (o : Option (List Str)) (l : List Str) : Option (List Str) :=
  if l = [] then o else some (o.getD [] ++ l)

/-- Every stored `ServiceInfo` is keyed by its own declared name. -/
def NamesOk (m : AList ServiceInfo) : Prop := ∀ p ∈ m, (p.2 : ServiceInfo).name = p.1

/-- How one `get_info` call's record changes on the next call on the same
generator: the persisted `invoked_by` accumulator doubles every entry. -/
def dupInvokedBy (r : Record) : Record :=
  { r with invoked_by := pySorted (r.invoked_by ++ r.invoked_by) }

/-- Two consecutive `get_info` calls on one generator. -/
def runTwice (ctx : Ctx) (pfx : Str) (reg : List (Str × Details)) :
    Option (List Record × List Record) :=
  match (mkGenerator reg none).get_info ctx pfx with
  | none => none
  | some (out1, g1) =>
    match g1.get_info ctx pfx with
    | none => none
    | some (out2, _) => some (out1, out2)

/-! ### Concrete data for counterexamples and witnesses -/

/-- A minimal external context: no dialects, heuristics that never match,
and an identity formatter. -/
def ctx0 : Ctx :=
  { sioTypeMap := []
    isBool := fun _ _ => false
    isInt := fun _ => false
    fmt := id }

def pz : Str := "zato".data

def nmA : Str := "a".data

def nmB : Str := "b".data

def sFoo : Str := "foo".data

def implA : Str := "x.a".data

def implB : Str := "x.b".data

def implZatoB : Str := "zato.b".data

/-- A class whose invokes declaration is the single string `b`. -/
def clsA : ServiceClass := { invokes := .str nmB, sio := none, doc := none }

/-- A class with no declarations at all. -/
def clsB : ServiceClass := { invokes := .absent, sio := none, doc := none }

/-- A two-service registry with one edge `a invokes b`. -/
def reg0 : List (Str × Details) := [(implA, ⟨nmA, clsA⟩), (implB, ⟨nmB, clsB⟩)]

/-- A class declaring the same invokes target `foo` twice in a list. -/
def clsDup : ServiceClass := { invokes := .pylist [sFoo, sFoo], sio := none, doc := none }

def nmSvc : Str := "svc".data

/-- The descriptor built for `clsDup` (used to discharge hypotheses). -/
def infoDup : ServiceInfo :=
  (mkServiceInfo ctx0 nmSvc clsDup).getD
    { name := [], service_class := clsB, simple_io := [], docstring := Docstring.empty
      invokes := [], invoked_by := [] }

/-- The generator state after one `parse` over `reg0`. -/
def g4 : Generator := ((mkGenerator reg0 none).parse ctx0 pz).getD (mkGenerator [] none)

def infoFallback : ServiceInfo :=
  { name := [], service_class := clsB, simple_io := [], docstring := Docstring.empty
    invokes := [], invoked_by := [] }

def iA4 : ServiceInfo := (alGet nmA g4.services).getD infoFallback

def iB4 : ServiceInfo := (alGet nmB g4.services).getD infoFallback

/-- First call on a fresh generator over `reg0`. -/
def call1 : Option (List Record × Generator) := (mkGenerator reg0 none).get_info ctx0 pz

def fallbackPair : List Record × Generator := ([], mkGenerator [] none)

def o1c : List Record := (call1.getD fallbackPair).1

def g1c : Generator := (call1.getD fallbackPair).2

/-- Second call on the same generator. -/
def call2 : Option (List Record × Generator) := g1c.get_info ctx0 pz

def o2c : List Record := (call2.getD fallbackPair).1

def g2c : Generator := (call2.getD fallbackPair).2

/-- A registry where the only entry naming `b` is itself ignored: `zato.b`
is skipped, yet `a` still declares an edge to `b` (dangling edge). -/
def regDangling : List (Str × Details) :=
  [(implA, ⟨nmA, clsA⟩), (implZatoB, ⟨nmB, clsB⟩)]

/-- The records `get_info` returns over `regDangling`. -/
def outDangling : List Record :=
  (((mkGenerator regDangling none).get_info ctx0 pz).getD fallbackPair).1

/-- The parsed generator and records over `reg0` (for the sorting claim). -/
def call5 : Option (List Record × Generator) := (mkGenerator reg0 none).get_info ctx0 pz

def o5c : List Record := (call5.getD fallbackPair).1

def g5c : Generator := (call5.getD fallbackPair).2

/-- A formatter standing for `docformatter` on the witness docstring: it
returns the reflowed text `"Does X."` (with its quote delimiters). -/
def fmt9 : Str → Str := fun _ => "\"Does X.\"".data

/-- A docstring whose first line ends in whitespace after a period. -/
def doc9 : Str := "Does X. ".data

def doc9u : Str := "Does X.".data

def doc9w : Str := [' ']

/-- A two-line docstring with a blank separator line (description witness). -/
def doc7 : Str := "Top.\n\nBody here.".data

/-- The docstring produced for `doc7` under the identity formatter. -/
def ds7 : Docstring := (setSummaryDesc id (some doc7)).getD Docstring.empty

/-- The docstring produced for `doc9` under `fmt9`. -/
def ds9 : Docstring := (setSummaryDesc fmt9 (some doc9)).getD Docstring.empty

/-- A boolean heuristic that matches every name (precedence witness). -/
def alwaysBool : Param → Str → Bool := fun _ _ => true

/-- An integer heuristic that matches every name (precedence witness). -/
def alwaysInt : Str → Bool := fun _ => true

/-- A one-dialect type table with distinct category pairs. -/
def dialect0 : ApiSpecInfo :=
  { name := "dialect".data
    DEFAULT := ( "string".data, "string".data)
    BOOLEAN := ( "boolean".data, "boolean".data)
    INTEGER := ( "integer".data, "integer".data)
    typeMap := fun _ => none }

/-- The post-call generator over `regDangling`. -/
def g8c : Generator := (((mkGenerator regDangling none).get_info ctx0 pz).getD fallbackPair).2

/-! ## Lemmas about the string primitives -/

theorem splitOnNl_ne_nil (s : Str) : splitOnNl s ≠ [] := by
  cases s with
  | nil => simp [splitOnNl]
  | cons c rest =>
    simp only [splitOnNl]
    split
    · simp
    · cases h : splitOnNl rest <;> simp

theorem getLast?_cons_of_ne_nil {α : Type} (a : α) {l : List α} (h : l ≠ []) :
    (a :: l).getLast? = l.getLast? := by
  cases l with
  | nil => exact absurd rfl h
  | cons b t => exact List.getLast?_cons_cons

theorem splitOnNl_cons (c : Char) (rest : Str) :
    splitOnNl (c :: rest) =
      if c = '\n' then [] :: splitOnNl rest
      else
        match splitOnNl rest with
        | [] => [[c]]
        | h :: t => (c :: h) :: t := rfl

theorem two_le_length_splitOnNl (s : Str) (h : s.getLast? = some '\n') :
    2 ≤ (splitOnNl s).length := by
  induction s with
  | nil => simp at h
  | cons c rest ih =>
    cases rest with
    | nil =>
      simp only [List.getLast?_singleton, Option.some.injEq] at h
      subst h
      simp [splitOnNl]
    | cons b t =>
      rw [List.getLast?_cons_cons] at h
      have h2 := ih h
      rw [splitOnNl_cons]
      by_cases hc : c = '\n'
      · rw [if_pos hc]
        simp only [List.length_cons]
        omega
      · rw [if_neg hc]
        cases hs : splitOnNl (b :: t) with
        | nil => exact absurd hs (splitOnNl_ne_nil _)
        | cons x xs =>
          rw [hs] at h2
          show 2 ≤ ((c :: x) :: xs).length
          simp only [List.length_cons] at h2 ⊢
          omega

theorem getLast?_splitOnNl (s : Str) (c : Char) (hc : c ≠ '\n')
    (h : s.getLast? = some c) :
    ∃ L, (splitOnNl s).getLast? = some L ∧ L.getLast? = some c := by
  induction s with
  | nil => simp at h
  | cons a rest ih =>
    cases rest with
    | nil =>
      simp only [List.getLast?_singleton, Option.some.injEq] at h
      subst h
      refine ⟨[a], ?_, ?_⟩
      · rw [splitOnNl_cons, if_neg hc]
        rfl
      · simp
    | cons b t =>
      rw [List.getLast?_cons_cons] at h
      obtain ⟨L, hL1, hL2⟩ := ih h
      rw [splitOnNl_cons]
      by_cases ha : a = '\n'
      · rw [if_pos ha]
        refine ⟨L, ?_, hL2⟩
        rw [getLast?_cons_of_ne_nil _ (splitOnNl_ne_nil _)]
        exact hL1
      · rw [if_neg ha]
        cases hs : splitOnNl (b :: t) with
        | nil => exact absurd hs (splitOnNl_ne_nil _)
        | cons h' ts =>
          rw [hs] at hL1
          cases ts with
          | nil =>
            simp only [List.getLast?_singleton, Option.some.injEq] at hL1
            subst hL1
            have hLne : h' ≠ [] := by
              intro hnil
              rw [hnil] at hL2
              simp at hL2
            show ∃ L0, [a :: h'].getLast? = some L0 ∧ L0.getLast? = some c
            refine ⟨a :: h', by simp, ?_⟩
            rw [getLast?_cons_of_ne_nil _ hLne]
            exact hL2
          | cons u us =>
            show ∃ L0, ((a :: h') :: u :: us).getLast? = some L0 ∧ L0.getLast? = some c
            refine ⟨L, ?_, hL2⟩
            rw [getLast?_cons_of_ne_nil _ (by simp : u :: us ≠ [])]
            rw [getLast?_cons_of_ne_nil _ (by simp : u :: us ≠ [])] at hL1
            exact hL1

theorem pySplitlines_ne_nil (s : Str) (h : s ≠ []) : pySplitlines s ≠ [] := by
  unfold pySplitlines
  rw [if_neg h]
  split
  · next hnl =>
    have h2 := two_le_length_splitOnNl s hnl
    intro hnil
    have := congrArg List.length hnil
    rw [List.length_dropLast] at this
    simp at this
    omega
  · exact splitOnNl_ne_nil s

theorem pySplitlines_of_not_newline (s : Str) (h : s ≠ [])
    (hnl : s.getLast? ≠ some '\n') : pySplitlines s = splitOnNl s := by
  unfold pySplitlines
  rw [if_neg h, if_neg hnl]

theorem joinNl_getLast? (l : List Str) (L : Str) (hL : l.getLast? = some L)
    (hne : L ≠ []) : (joinNl l).getLast? = L.getLast? := by
  induction l with
  | nil => simp at hL
  | cons x rest ih =>
    cases rest with
    | nil =>
      simp only [List.getLast?_singleton, Option.some.injEq] at hL
      subst hL
      rfl
    | cons y t =>
      rw [List.getLast?_cons_cons] at hL
      have hJ := ih hL
      show (x ++ '\n' :: joinNl (y :: t)).getLast? = L.getLast?
      rw [List.getLast?_append]
      cases hj : joinNl (y :: t) with
      | nil =>
        rw [hj] at hJ
        simp only [List.getLast?_nil] at hJ
        exact absurd (List.getLast?_eq_none_iff.mp hJ.symm) hne
      | cons u us =>
        rw [hj] at hJ
        rw [getLast?_cons_of_ne_nil _ (by simp : u :: us ≠ [])]
        rw [Option.or_of_isSome]
        · exact hJ
        · rw [hJ]
          rw [Option.isSome_iff_ne_none]
          intro hno
          exact hne (List.getLast?_eq_none_iff.mp hno)

theorem descriptionFrom_getLast (full : Str) (hfull : full.getLast? = some '.')
    (hne : descriptionFrom full ≠ []) :
    (descriptionFrom full).getLast? = some '.' := by
  have hfne : full ≠ [] := by
    intro h0
    rw [h0] at hfull
    simp at hfull
  have hnl : full.getLast? ≠ some '\n' := by
    rw [hfull]
    intro hx
    simp at hx
  have hsp := pySplitlines_of_not_newline full hfne hnl
  obtain ⟨L, hL1, hL2⟩ := getLast?_splitOnNl full '.' (by decide) hfull
  simp only [descriptionFrom, hsp] at hne ⊢
  by_cases hcond : 1 < (splitOnNl full).length ∧ (splitOnNl full)[1]? = some []
  · rw [if_pos hcond] at hne ⊢
    have hdrop : (splitOnNl full).drop 2 ≠ [] := by
      intro h0
      rw [h0] at hne
      exact hne rfl
    have hlen : ¬((splitOnNl full).length ≤ 2) := by
      intro hle
      exact hdrop (List.drop_eq_nil_iff.mpr hle)
    have hdl : ((splitOnNl full).drop 2).getLast? = some L := by
      rw [List.getLast?_drop, if_neg hlen]
      exact hL1
    have hLne : L ≠ [] := by
      intro h0
      rw [h0] at hL2
      simp at hL2
    rw [joinNl_getLast? _ L hdl hLne]
    exact hL2
  · rw [if_neg hcond] at hne
    exact absurd rfl hne

theorem dropPeriodVsDesc_self (full : Str) (h : full ≠ []) :
    dropPeriodVsDesc full (descriptionFrom full) = some full := by
  by_cases hdne : descriptionFrom full = []
  · unfold dropPeriodVsDesc
    rw [if_pos hdne]
  · cases hg : full.getLast? with
    | none => exact absurd (List.getLast?_eq_none_iff.mp hg) h
    | some c =>
      by_cases hc : c = '.'
      · subst hc
        have hd := descriptionFrom_getLast full hg hdne
        unfold dropPeriodVsDesc
        rw [if_neg hdne, hg, hd]
        simp
      · unfold dropPeriodVsDesc
        rw [if_neg hdne, hg]
        simp [hc]

/-- Characterization of `set_summary_desc` on a nonempty docstring with
first raw line `s0`: the summary is `s0` trimmed, the description follows
the blank-second-line rule over the normalized full text, and the full text
loses its last character exactly when it ends in a period while the raw
first line does not. -/
theorem setSummaryDesc_eq (fmt : Str → Str) (d s0 : Str) (hd : d ≠ [])
    (hs : (pySplitlines d).head? = some s0) :
    setSummaryDesc fmt (some d) =
      some ⟨pyStrip s0, descriptionFrom (normalizedFull fmt d),
        pyRstrip
          (if normalizedFull fmt d ≠ [] ∧ s0 ≠ [] ∧ (normalizedFull fmt d).getLast? = some '.'
              ∧ s0.getLast? ≠ some '.'
           then (normalizedFull fmt d).dropLast else normalizedFull fmt d)⟩ := by
  unfold setSummaryDesc
  dsimp only
  rw [if_neg hd, hs]
  dsimp only
  by_cases hFe : normalizedFull fmt d = []
  · rw [if_pos hFe]
    have hno : ¬(normalizedFull fmt d ≠ [] ∧ s0 ≠ []
        ∧ (normalizedFull fmt d).getLast? = some '.' ∧ s0.getLast? ≠ some '.') := by
      intro hcon
      exact hcon.1 hFe
    rw [if_neg hno]
  · rw [if_neg hFe, dropPeriodVsDesc_self _ hFe]
    dsimp only
    by_cases hs0 : s0 = []
    · rw [if_pos hs0]
      have hno : ¬(normalizedFull fmt d ≠ [] ∧ s0 ≠ []
          ∧ (normalizedFull fmt d).getLast? = some '.' ∧ s0.getLast? ≠ some '.') := by
        intro hcon
        exact hcon.2.1 hs0
      rw [if_neg hno]
    · rw [if_neg hs0]
      cases hg : (normalizedFull fmt d).getLast? with
      | none => exact absurd (List.getLast?_eq_none_iff.mp hg) hFe
      | some c =>
        dsimp only
        by_cases hc : c = '.'
        · subst hc
          by_cases hsc : s0.getLast? ≠ some '.'
          · rw [if_pos ⟨rfl, hsc⟩, if_pos ⟨hFe, hs0, rfl, hsc⟩]
          · have hno1 : ¬('.' = '.' ∧ s0.getLast? ≠ some '.') := by
              intro hcon
              exact hsc hcon.2
            have hno2 : ¬(normalizedFull fmt d ≠ [] ∧ s0 ≠ []
                ∧ (some '.' : Option Char) = some '.' ∧ s0.getLast? ≠ some '.') := by
              intro hcon
              exact hsc hcon.2.2.2
            rw [if_neg hno1, if_neg hno2]
        · have hno1 : ¬(c = '.' ∧ s0.getLast? ≠ some c) := by
            intro hcon
            exact hc hcon.1
          have hno2 : ¬(normalizedFull fmt d ≠ [] ∧ s0 ≠ []
              ∧ (some c : Option Char) = some '.' ∧ s0.getLast? ≠ some '.') := by
            intro hcon
            exact hc (Option.some.inj hcon.2.2.1)
          rw [if_neg hno1, if_neg hno2]

theorem setSummaryDesc_isSome (fmt : Str → Str) (doc? : Option Str) :
    (setSummaryDesc fmt doc?).isSome = true := by
  cases doc? with
  | none => rfl
  | some d =>
    by_cases hd : d = []
    · subst hd
      rfl
    · obtain ⟨s0, hs⟩ := Option.isSome_iff_exists.mp
        (List.head?_isSome.mpr (pySplitlines_ne_nil d hd))
      rw [setSummaryDesc_eq fmt d s0 hd hs]
      rfl

/-- C3: building a service descriptor never raises, for every service name,
every service class (any `invokes`, `SimpleIO` and docstring declarations)
and every behavior of the external formatter and heuristics; in particular
the docstring normalization with its trailing-period removal is total. -/
theorem c3_descriptor_never_fails (ctx : Ctx) (nm : Str) (cls : ServiceClass) :
    (mkServiceInfo ctx nm cls).isSome = true := by
  unfold mkServiceInfo
  cases hset : setSummaryDesc ctx.fmt cls.doc with
  | none =>
    have h2 := setSummaryDesc_isSome ctx.fmt cls.doc
    rw [hset] at h2
    simp at h2
  | some ds => rfl

/-- C7: on every nonempty docstring, the description field equals the
specification's rule applied to the normalized full text: if it has more
than one line and line 1 (0-indexed) is blank, the join of the lines from
index 2 onward, otherwise the empty string. -/
theorem c7_description_gating (fmt : Str → Str) (d : Str) (ds : Docstring)
    (hd : d ≠ []) (h : setSummaryDesc fmt (some d) = some ds) :
    ds.description = descriptionPerSpec (normalizedFull fmt d) := by
  obtain ⟨s0, hs⟩ := Option.isSome_iff_exists.mp
    (List.head?_isSome.mpr (pySplitlines_ne_nil d hd))
  rw [setSummaryDesc_eq fmt d s0 hd hs] at h
  have h2 := Option.some.inj h
  rw [← h2]
  rfl

/-- Witness for C7 at a concrete two-line docstring. -/
theorem c7_witness :
    doc7 ≠ [] ∧ setSummaryDesc id (some doc7) = some ds7
      ∧ ds7.description = descriptionPerSpec (normalizedFull id doc7) :=
  ⟨by decide, by decide, c7_description_gating id doc7 ds7 (by decide) (by decide)⟩

theorem dropWhile_ne_nil_of_getLast (p : Char → Bool) (u : Str) (c : Char)
    (hu : u.getLast? = some c) (hp : p c = false) : u.dropWhile p ≠ [] := by
  intro h0
  have hall := List.dropWhile_eq_nil_iff.mp h0
  have hc : c ∈ u := List.mem_of_mem_getLast? (Option.mem_def.mpr hu)
  rw [hall c hc] at hp
  exact absurd hp (by decide)

theorem getLast?_dropWhile (p : Char → Bool) (u : Str)
    (hne : u.dropWhile p ≠ []) : (u.dropWhile p).getLast? = u.getLast? := by
  obtain ⟨t, ht⟩ := List.dropWhile_suffix (l := u) p
  conv_rhs => rw [← ht]
  rw [List.getLast?_append, Option.or_of_isSome (List.getLast?_isSome.mpr hne)]

theorem dropWhile_append_of_all (p : Char → Bool) (xs ys : Str)
    (h : ∀ a ∈ xs, p a = true) : (xs ++ ys).dropWhile p = ys.dropWhile p := by
  induction xs with
  | nil => rfl
  | cons a t ih =>
    rw [List.cons_append, List.dropWhile_cons, if_pos (h a (by simp))]
    exact ih (fun b hb => h b (by simp [hb]))

theorem getLast?_pyStrip (u w : Str) (hu : u.getLast? = some '.')
    (hws : ∀ c ∈ w, pyIsSpace c = true) :
    (pyStrip (u ++ w)).getLast? = some '.' := by
  have hx : u.dropWhile pyIsSpace ≠ [] :=
    dropWhile_ne_nil_of_getLast _ u '.' hu (by decide)
  have hstep1 : (u ++ w).dropWhile pyIsSpace = u.dropWhile pyIsSpace ++ w := by
    rw [List.dropWhile_append,
      if_neg (fun hemp => hx (List.isEmpty_iff.mp hemp))]
  have hxlast : (u.dropWhile pyIsSpace).getLast? = some '.' := by
    rw [getLast?_dropWhile pyIsSpace u hx]
    exact hu
  unfold pyStrip dropTrailWhile
  rw [hstep1, List.reverse_append,
    dropWhile_append_of_all pyIsSpace w.reverse _
      (fun a ha => hws a (List.mem_reverse.mp ha)),
    List.getLast?_reverse]
  cases hxr : (u.dropWhile pyIsSpace).reverse with
  | nil =>
    rw [List.reverse_eq_nil_iff] at hxr
    exact absurd hxr hx
  | cons a t =>
    have hhead : (u.dropWhile pyIsSpace).reverse.head? = some '.' := by
      rw [List.head?_reverse]
      exact hxlast
    rw [hxr] at hhead
    simp only [List.head?_cons, Option.some.injEq] at hhead
    subst hhead
    rw [List.dropWhile_cons, if_neg (by decide)]
    rfl

/-- C9: when the raw first line of the docstring ends in whitespace after a
period, the summary-driven trailing-period check compares against that
whitespace character (summaries are only trimmed afterwards), so the
normalized full text's trailing period is dropped even though the trimmed
summary itself ends in a period. -/
theorem c9_untrimmed_compare (fmt : Str → Str) (d u w : Str) (ds : Docstring)
    (hd : d ≠ [])
    (hs : (pySplitlines d).head? = some (u ++ w))
    (hw : w ≠ []) (hws : ∀ c ∈ w, pyIsSpace c = true)
    (hu : u.getLast? = some '.')
    (hF : (normalizedFull fmt d).getLast? = some '.')
    (h : setSummaryDesc fmt (some d) = some ds) :
    ds.full = pyRstrip ((normalizedFull fmt d).dropLast)
      ∧ ds.summary = pyStrip (u ++ w) ∧ ds.summary.getLast? = some '.' := by
  rw [setSummaryDesc_eq fmt d (u ++ w) hd hs] at h
  have hFne : normalizedFull fmt d ≠ [] := by
    intro h0
    rw [h0] at hF
    simp at hF
  have hs0ne : u ++ w ≠ [] := by
    intro h0
    exact hw (List.append_eq_nil.mp h0).2
  have hwlast : ∃ c, w.getLast? = some c ∧ pyIsSpace c = true := by
    cases hwl : w.getLast? with
    | none => exact absurd (List.getLast?_eq_none_iff.mp hwl) hw
    | some c => exact ⟨c, rfl, hws c (List.mem_of_mem_getLast? (Option.mem_def.mpr hwl))⟩
  obtain ⟨c, hwl, hcsp⟩ := hwlast
  have hs0ne_dot : (u ++ w).getLast? ≠ some '.' := by
    rw [List.getLast?_append, hwl]
    intro h0
    have hc : c = '.' := Option.some.inj h0
    rw [hc] at hcsp
    exact absurd hcsp (by decide)
  rw [if_pos ⟨hFne, hs0ne, hF, hs0ne_dot⟩] at h
  have h2 := Option.some.inj h
  refine ⟨?_, ?_, ?_⟩
  · rw [← h2]
  · rw [← h2]
  · rw [← h2]
    show (pyStrip (u ++ w)).getLast? = some '.'
    exact getLast?_pyStrip u w hu hws

/-- Witness for C9: first line `Does X. ` (trailing space after the
period), formatter returning the reflowed `Does X.`; the emitted full text
is `Does X` while the trimmed summary is `Does X.`. -/
theorem c9_witness :
    setSummaryDesc fmt9 (some doc9) = some ds9
      ∧ ds9.full = pyRstrip ((normalizedFull fmt9 doc9).dropLast)
      ∧ ds9.summary = pyStrip (doc9u ++ doc9w)
      ∧ ds9.summary.getLast? = some '.' :=
  ⟨by decide,
    c9_untrimmed_compare fmt9 doc9 doc9u doc9w ds9 (by decide) (by decide) (by decide)
      (by decide) (by decide) (by decide) (by decide)⟩

/-! ## Dictionary lemmas -/

theorem alKeys_nil {α : Type} : alKeys ([] : AList α) = [] := rfl

theorem alKeys_pair {α : Type} (a : Str) (b : α) (m : AList α) :
    alKeys ((a, b) :: m) = a :: alKeys m := rfl

theorem alGet_nil {α : Type} (k : Str) : alGet k ([] : AList α) = none := rfl

theorem alGet_pair {α : Type} (k a : Str) (b : α) (m : AList α) :
    alGet k ((a, b) :: m) = if a = k then some b else alGet k m := rfl

theorem alSet_nil {α : Type} (k : Str) (v : α) : alSet k v ([] : AList α) = [(k, v)] := rfl

theorem alSet_pair {α : Type} (k a : Str) (v b : α) (m : AList α) :
    alSet k v ((a, b) :: m) = if a = k then (k, v) :: m else (a, b) :: alSet k v m := rfl

theorem alGet_alSet {α : Type} (k k' : Str) (v : α) (m : AList α) :
    alGet k (alSet k' v m) = if k' = k then some v else alGet k m := by
  induction m with
  | nil => simp [alSet_nil, alGet_pair, alGet_nil]
  | cons p rest ih =>
    obtain ⟨a, b⟩ := p
    rw [alSet_pair]
    by_cases ha : a = k'
    · rw [if_pos ha, alGet_pair, alGet_pair]
      by_cases hak : k' = k
      · rw [if_pos hak, if_pos hak]
      · rw [if_neg hak, if_neg hak, if_neg (fun h => hak (ha ▸ h))]
    · rw [if_neg ha, alGet_pair, alGet_pair]
      by_cases hak : a = k
      · have hk2 : ¬k' = k := fun h => ha (hak.trans h.symm)
        rw [if_pos hak, if_neg hk2, if_pos hak]
      · rw [if_neg hak, if_neg hak, ih]

theorem alKeys_alSet {α : Type} (k : Str) (v : α) (m : AList α) :
    alKeys (alSet k v m) = if k ∈ alKeys m then alKeys m else alKeys m ++ [k] := by
  induction m with
  | nil => simp [alSet_nil, alKeys_pair, alKeys_nil]
  | cons p rest ih =>
    obtain ⟨a, b⟩ := p
    rw [alSet_pair, alKeys_pair]
    by_cases ha : a = k
    · rw [if_pos ha, alKeys_pair, if_pos (by rw [← ha]; exact List.mem_cons_self _ _)]
      rw [ha]
    · rw [if_neg ha, alKeys_pair, ih]
      by_cases hmem : k ∈ alKeys rest
      · rw [if_pos hmem, if_pos (List.mem_cons_of_mem _ hmem)]
      · rw [if_neg hmem, if_neg ?hnomem]
        · simp
        case hnomem =>
          intro hmem2
          rcases List.mem_cons.mp hmem2 with h1 | h2
          · exact ha h1.symm
          · exact hmem h2

theorem alGet_eq_none_iff {α : Type} (k : Str) (m : AList α) :
    alGet k m = none ↔ k ∉ alKeys m := by
  induction m with
  | nil => simp [alGet, alKeys]
  | cons p rest ih =>
    obtain ⟨a, b⟩ := p
    rw [alKeys_pair]
    simp only [alGet, List.mem_cons]
    by_cases ha : a = k
    · subst ha
      rw [if_pos rfl]
      simp
    · rw [if_neg ha, ih]
      constructor
      · rintro h (h1 | h2)
        · exact ha h1.symm
        · exact h h2
      · intro h
        exact fun h2 => h (Or.inr h2)

theorem alGet_mem {α : Type} (k : Str) (v : α) (m : AList α)
    (h : alGet k m = some v) : (k, v) ∈ m := by
  induction m with
  | nil => simp [alGet] at h
  | cons p rest ih =>
    obtain ⟨a, b⟩ := p
    simp only [alGet] at h
    by_cases ha : a = k
    · subst ha
      rw [if_pos rfl] at h
      have hb : b = v := Option.some.inj h
      subst hb
      exact List.mem_cons_self _ _
    · rw [if_neg ha] at h
      exact List.mem_cons_of_mem _ (ih h)

theorem nodup_alKeys_alSet {α : Type} (k : Str) (v : α) (m : AList α)
    (h : (alKeys m).Nodup) : (alKeys (alSet k v m)).Nodup := by
  rw [alKeys_alSet]
  by_cases hmem : k ∈ alKeys m
  · rw [if_pos hmem]
    exact h
  · rw [if_neg hmem]
    simp [List.nodup_append, h, hmem]

theorem alExt {α : Type} (m1 m2 : AList α) (hk : alKeys m1 = alKeys m2)
    (hnd : (alKeys m1).Nodup) (hget : ∀ k, alGet k m1 = alGet k m2) : m1 = m2 := by
  induction m1 generalizing m2 with
  | nil =>
    cases m2 with
    | nil => rfl
    | cons q t => rw [alKeys_nil, alKeys_pair] at hk; exact absurd hk (by simp)
  | cons p t1 ih =>
    obtain ⟨a, b⟩ := p
    cases m2 with
    | nil => rw [alKeys_pair, alKeys_nil] at hk; exact absurd hk (by simp)
    | cons q t2 =>
      obtain ⟨a2, b2⟩ := q
      rw [alKeys_pair, alKeys_pair] at hk
      injection hk with hk1 hk2
      subst hk1
      have hb : b = b2 := by
        have hg := hget a
        simp only [alGet, if_pos rfl] at hg
        exact Option.some.inj hg
      subst hb
      rw [alKeys_pair] at hnd
      have hnd2 := List.nodup_cons.mp hnd
      refine congrArg _ (ih t2 hk2 hnd2.2 ?_)
      intro k
      by_cases hka : a = k
      · subst hka
        rw [(alGet_eq_none_iff a t1).mpr hnd2.1,
          (alGet_eq_none_iff a t2).mpr (hk2 ▸ hnd2.1)]
      · have hg := hget k
        simp only [alGet, if_neg hka] at hg
        exact hg

/-! ## Write-replay lemmas -/

theorem applyWrites_nil {α : Type} (m : AList α) : applyWrites [] m = m := rfl

theorem applyWrites_cons {α : Type} (p : Str × α) (ws : List (Str × α)) (m : AList α) :
    applyWrites (p :: ws) m = applyWrites ws (alSet p.1 p.2 m) := rfl

theorem lastWrite_nil {α : Type} (k : Str) : lastWrite k ([] : List (Str × α)) = none := rfl

theorem lastWrite_pair {α : Type} (k a : Str) (u : α) (ws : List (Str × α)) :
    lastWrite k ((a, u) :: ws) =
      match lastWrite k ws with
      | some v => some v
      | none => if a = k then some u else none := rfl

theorem alGet_applyWrites {α : Type} (ws : List (Str × α)) (m : AList α) (k : Str) :
    alGet k (applyWrites ws m) =
      match lastWrite k ws with
      | some v => some v
      | none => alGet k m := by
  induction ws generalizing m with
  | nil => rfl
  | cons p ws ih =>
    obtain ⟨a, u⟩ := p
    rw [applyWrites_cons, ih, lastWrite_pair]
    cases hlw : lastWrite k ws with
    | some v => rfl
    | none =>
      dsimp only
      rw [alGet_alSet]
      by_cases hak : a = k
      · rw [if_pos hak, if_pos hak]
      · rw [if_neg hak, if_neg hak]

theorem lastWrite_eq_none_iff {α : Type} (k : Str) (ws : List (Str × α)) :
    lastWrite k ws = none ↔ k ∉ ws.map Prod.fst := by
  induction ws with
  | nil => simp [lastWrite_nil]
  | cons p ws ih =>
    obtain ⟨a, u⟩ := p
    rw [lastWrite_pair]
    cases hlw : lastWrite k ws with
    | some v =>
      have hk : k ∈ ws.map Prod.fst := by
        by_contra hno
        rw [ih.mpr hno] at hlw
        exact Option.noConfusion hlw
      dsimp only
      refine ⟨fun h0 => Option.noConfusion h0, fun h0 => absurd ?_ h0⟩
      simp only [List.map_cons, List.mem_cons]
      exact Or.inr hk
    | none =>
      dsimp only
      by_cases hak : a = k
      · rw [if_pos hak]
        refine ⟨fun h0 => Option.noConfusion h0, fun h0 => absurd ?_ h0⟩
        simp only [List.map_cons, List.mem_cons]
        exact Or.inl hak.symm
      · rw [if_neg hak]
        simp only [List.map_cons, List.mem_cons]
        exact ⟨fun _ hor => hor.elim (fun h => hak h.symm) (ih.mp hlw),
          fun _ => trivial⟩

theorem mem_alKeys_applyWrites {α : Type} (ws : List (Str × α)) (m : AList α) (k : Str) :
    k ∈ alKeys (applyWrites ws m) ↔ k ∈ ws.map Prod.fst ∨ k ∈ alKeys m := by
  constructor
  · intro h
    by_cases hw : k ∈ ws.map Prod.fst
    · exact Or.inl hw
    · right
      have h2 := alGet_applyWrites ws m k
      rw [(lastWrite_eq_none_iff k ws).mpr hw] at h2
      dsimp only at h2
      by_contra hm
      rw [(alGet_eq_none_iff k m).mpr hm] at h2
      exact ((alGet_eq_none_iff k (applyWrites ws m)).mp h2) h
  · intro h
    have h2 := alGet_applyWrites ws m k
    by_contra hno
    have h3 := (alGet_eq_none_iff k (applyWrites ws m)).mpr hno
    rw [h3] at h2
    cases hlw : lastWrite k ws with
    | some v => rw [hlw] at h2; exact Option.noConfusion h2
    | none =>
      rw [hlw] at h2
      dsimp only at h2
      rcases h with hw | hm
      · exact ((lastWrite_eq_none_iff k ws).mp hlw) hw
      · exact ((alGet_eq_none_iff k m).mp h2.symm) hm

theorem nodup_alKeys_applyWrites {α : Type} (ws : List (Str × α)) (m : AList α)
    (h : (alKeys m).Nodup) : (alKeys (applyWrites ws m)).Nodup := by
  induction ws generalizing m with
  | nil => exact h
  | cons p ws ih => exact ih _ (nodup_alKeys_alSet p.1 p.2 m h)

theorem alKeys_applyWrites_of_subset {α : Type} (ws : List (Str × α)) (m : AList α)
    (h : ∀ k ∈ ws.map Prod.fst, k ∈ alKeys m) :
    alKeys (applyWrites ws m) = alKeys m := by
  induction ws generalizing m with
  | nil => rfl
  | cons p ws ih =>
    obtain ⟨a, u⟩ := p
    rw [applyWrites_cons]
    have ha : a ∈ alKeys m :=
      h a (by simp only [List.map_cons, List.mem_cons]; exact Or.inl trivial)
    have hkeys : alKeys (alSet a u m) = alKeys m := by rw [alKeys_alSet, if_pos ha]
    rw [ih (alSet a u m) ?_, hkeys]
    intro k hk
    rw [hkeys]
    exact h k (by simp only [List.map_cons, List.mem_cons]; exact Or.inr hk)

theorem applyWrites_replay {α : Type} (ws : List (Str × α)) (m : AList α)
    (hk : alKeys m = alKeys (applyWrites ws [])) :
    applyWrites ws m = applyWrites ws [] := by
  have hnd0 : (alKeys (applyWrites ws ([] : AList α))).Nodup :=
    nodup_alKeys_applyWrites ws [] (by rw [alKeys_nil]; exact List.nodup_nil)
  have hsub : ∀ k ∈ ws.map Prod.fst, k ∈ alKeys m := by
    intro k hkw
    rw [hk]
    exact (mem_alKeys_applyWrites ws [] k).mpr (Or.inl hkw)
  have hkeys : alKeys (applyWrites ws m) = alKeys (applyWrites ws []) := by
    rw [alKeys_applyWrites_of_subset ws m hsub, hk]
  refine alExt _ _ hkeys (by rw [hkeys]; exact hnd0) ?_
  intro k
  have h1 := alGet_applyWrites ws m k
  have h2 := alGet_applyWrites ws [] k
  cases hlw : lastWrite k ws with
  | some v =>
    rw [hlw] at h1 h2
    rw [h1, h2]
  | none =>
    rw [hlw] at h1 h2
    dsimp only at h1 h2
    rw [h1, h2, alGet_nil, alGet_eq_none_iff]
    intro hmem
    rw [hk] at hmem
    rcases (mem_alKeys_applyWrites ws [] k).mp hmem with hw | hm
    · exact ((lastWrite_eq_none_iff k ws).mp hlw) hw
    · rw [alKeys_nil] at hm
      exact List.not_mem_nil k hm

/-! ## Characterizations of the four parse loops -/

theorem parseLoop1_pair (ctx : Ctx) (pfx impl : Str) (d : Details)
    (rest : List (Str × Details)) (m : AList ServiceInfo) :
    parseLoop1 ctx pfx ((impl, d) :: rest) m =
      if pfx.isPrefixOf impl then parseLoop1 ctx pfx rest m
      else
        match mkServiceInfo ctx d.name d.service_class with
        | none => none
        | some info => parseLoop1 ctx pfx rest (alSet info.name info m) := rfl

theorem writesOf_pair (ctx : Ctx) (pfx impl : Str) (d : Details)
    (rest : List (Str × Details)) :
    writesOf ctx pfx ((impl, d) :: rest) =
      if pfx.isPrefixOf impl then writesOf ctx pfx rest
      else
        match mkServiceInfo ctx d.name d.service_class with
        | none => none
        | some info =>
          match writesOf ctx pfx rest with
          | none => none
          | some ws => some ((info.name, info) :: ws) := rfl

theorem parseLoop1_eq (ctx : Ctx) (pfx : Str) (reg : List (Str × Details))
    (m : AList ServiceInfo) :
    parseLoop1 ctx pfx reg m = (writesOf ctx pfx reg).map (fun ws => applyWrites ws m) := by
  induction reg generalizing m with
  | nil => rfl
  | cons p rest ih =>
    obtain ⟨impl, d⟩ := p
    rw [parseLoop1_pair, writesOf_pair]
    by_cases hp : pfx.isPrefixOf impl
    · rw [if_pos hp, if_pos hp, ih]
    · rw [if_neg hp, if_neg hp]
      cases hmk : mkServiceInfo ctx d.name d.service_class with
      | none => rfl
      | some info =>
        dsimp only
        rw [ih]
        cases hws : writesOf ctx pfx rest with
        | none => rfl
        | some ws => rfl

theorem mkServiceInfo_some (ctx : Ctx) (nm : Str) (cls : ServiceClass)
    (i : ServiceInfo) (h : mkServiceInfo ctx nm cls = some i) :
    i.name = nm ∧ i.service_class = cls ∧ i.simple_io = addSimpleIO ctx cls.sio
      ∧ i.invokes = addServicesFromInvokes cls.invokes ∧ i.invoked_by = [] := by
  unfold mkServiceInfo at h
  cases hset : setSummaryDesc ctx.fmt cls.doc with
  | none =>
    rw [hset] at h
    exact Option.noConfusion h
  | some ds =>
    rw [hset] at h
    have h2 := Option.some.inj h
    rw [← h2]
    exact ⟨rfl, rfl, rfl, rfl, rfl⟩

theorem writesOf_namesOk (ctx : Ctx) (pfx : Str) (reg : List (Str × Details))
    (ws : List (Str × ServiceInfo)) (h : writesOf ctx pfx reg = some ws) :
    ∀ p ∈ ws, (p.2 : ServiceInfo).name = p.1 := by
  induction reg generalizing ws with
  | nil =>
    have h2 := Option.some.inj h
    rw [← h2]
    intro p hp
    exact absurd hp (List.not_mem_nil p)
  | cons q rest ih =>
    obtain ⟨impl, d⟩ := q
    rw [writesOf_pair] at h
    by_cases hp : pfx.isPrefixOf impl
    · rw [if_pos hp] at h
      exact ih ws h
    · rw [if_neg hp] at h
      cases hmk : mkServiceInfo ctx d.name d.service_class with
      | none => rw [hmk] at h; exact Option.noConfusion h
      | some info =>
        rw [hmk] at h
        cases hws : writesOf ctx pfx rest with
        | none => rw [hws] at h; exact Option.noConfusion h
        | some ws' =>
          rw [hws] at h
          have h2 := Option.some.inj h
          rw [← h2]
          intro p hp2
          rcases List.mem_cons.mp hp2 with h3 | h3
          · rw [h3]
          · exact ih ws' hws p h3

theorem writesOf_key_source (ctx : Ctx) (pfx : Str) (reg : List (Str × Details))
    (ws : List (Str × ServiceInfo)) (k : Str) (h : writesOf ctx pfx reg = some ws)
    (hk : k ∈ ws.map Prod.fst) :
    ∃ q, q ∈ reg ∧ pfx.isPrefixOf q.1 = false ∧ (q.2 : Details).name = k := by
  induction reg generalizing ws with
  | nil =>
    have h2 := Option.some.inj h
    rw [← h2] at hk
    exact absurd hk (by simp)
  | cons q rest ih =>
    obtain ⟨impl, d⟩ := q
    rw [writesOf_pair] at h
    by_cases hp : pfx.isPrefixOf impl
    · rw [if_pos hp] at h
      obtain ⟨q', hq1, hq2, hq3⟩ := ih ws h hk
      exact ⟨q', List.mem_cons_of_mem _ hq1, hq2, hq3⟩
    · rw [if_neg hp] at h
      cases hmk : mkServiceInfo ctx d.name d.service_class with
      | none => rw [hmk] at h; exact Option.noConfusion h
      | some info =>
        rw [hmk] at h
        cases hws : writesOf ctx pfx rest with
        | none => rw [hws] at h; exact Option.noConfusion h
        | some ws' =>
          rw [hws] at h
          have h2 := Option.some.inj h
          rw [← h2] at hk
          simp only [List.map_cons, List.mem_cons] at hk
          rcases hk with h3 | h3
          · refine ⟨(impl, d), List.mem_cons_self _ _, Bool.eq_false_iff.mpr hp, ?_⟩
            rw [h3]
            exact ((mkServiceInfo_some ctx d.name d.service_class info hmk).1).symm
          · obtain ⟨q', hq1, hq2, hq3⟩ := ih ws' hws h3
            exact ⟨q', List.mem_cons_of_mem _ hq1, hq2, hq3⟩

theorem namesOk_alSet (m : AList ServiceInfo) (k : Str) (v : ServiceInfo)
    (hv : v.name = k) (hm : NamesOk m) : NamesOk (alSet k v m) := by
  induction m with
  | nil =>
    intro p hp
    rw [alSet_nil] at hp
    rcases List.mem_cons.mp hp with h | h
    · rw [h]; exact hv
    · exact absurd h (List.not_mem_nil p)
  | cons q rest ih =>
    obtain ⟨a, b⟩ := q
    intro p hp
    rw [alSet_pair] at hp
    by_cases hak : a = k
    · rw [if_pos hak] at hp
      rcases List.mem_cons.mp hp with h | h
      · rw [h]; exact hv
      · exact hm p (List.mem_cons_of_mem _ h)
    · rw [if_neg hak] at hp
      rcases List.mem_cons.mp hp with h | h
      · rw [h]; exact hm (a, b) (List.mem_cons_self _ _)
      · exact ih (fun q hq => hm q (List.mem_cons_of_mem _ hq)) p h

theorem namesOk_applyWrites (ws : List (Str × ServiceInfo)) (m : AList ServiceInfo)
    (hws : ∀ p ∈ ws, (p.2 : ServiceInfo).name = p.1) (hm : NamesOk m) :
    NamesOk (applyWrites ws m) := by
  induction ws generalizing m with
  | nil => exact hm
  | cons p ws ih =>
    rw [applyWrites_cons]
    exact ih _ (fun q hq => hws q (List.mem_cons_of_mem _ hq))
      (namesOk_alSet m p.1 p.2 (hws p (List.mem_cons_self _ _)) hm)

theorem alGet_parseLoop4 (B : AList (List Str)) (S : AList ServiceInfo) (k : Str) :
    alGet k (parseLoop4 B S) =
      (alGet k S).map (fun i => { i with invoked_by := (alGet k B).getD [] }) := by
  induction S with
  | nil => rfl
  | cons p rest ih =>
    obtain ⟨a, b⟩ := p
    show alGet k ((a, { b with invoked_by := (alGet a B).getD [] }) :: parseLoop4 B rest) = _
    rw [alGet_pair, alGet_pair]
    by_cases hak : a = k
    · rw [if_pos hak, if_pos hak, hak]
      rfl
    · rw [if_neg hak, if_neg hak, ih]

theorem alKeys_parseLoop4 (B : AList (List Str)) (S : AList ServiceInfo) :
    alKeys (parseLoop4 B S) = alKeys S := by
  unfold parseLoop4 alKeys
  rw [List.map_map]
  rfl

theorem namesOk_parseLoop4 (B : AList (List Str)) (S : AList ServiceInfo)
    (h : NamesOk S) : NamesOk (parseLoop4 B S) := by
  intro p hp
  unfold parseLoop4 at hp
  obtain ⟨q, hq1, hq2⟩ := List.mem_map.mp hp
  rw [← hq2]
  exact h q hq1

theorem parseLoop2_eq (S : AList ServiceInfo) (m : AList (List Str)) :
    parseLoop2 S m = applyWrites (invWrites S) m := by
  unfold parseLoop2 applyWrites invWrites
  rw [List.foldl_map]

theorem invWrites_keys (S : AList ServiceInfo) :
    (invWrites S).map Prod.fst = alKeys S := by
  unfold invWrites alKeys
  rw [List.map_map]
  rfl

theorem lastWrite_invWrites (S : AList ServiceInfo) (k : Str)
    (hnd : (alKeys S).Nodup) :
    lastWrite k (invWrites S) = (alGet k S).map (fun i => i.invokes) := by
  induction S with
  | nil => rfl
  | cons p rest ih =>
    obtain ⟨a, b⟩ := p
    rw [alKeys_pair] at hnd
    have hnd2 := List.nodup_cons.mp hnd
    show lastWrite k ((a, b.invokes) :: invWrites rest) = _
    rw [lastWrite_pair, alGet_pair, ih hnd2.2]
    by_cases hak : a = k
    · have hknotin : k ∉ alKeys rest := hak ▸ hnd2.1
      have hnone : alGet k rest = none := (alGet_eq_none_iff k rest).mpr hknotin
      rw [hnone, if_pos hak, if_pos hak]
      rfl
    · rw [if_neg hak, if_neg hak]
      cases halg : alGet k rest with
      | none => rfl
      | some i => rfl

theorem alGet_parseLoop2_nil (S : AList ServiceInfo) (k : Str)
    (hnd : (alKeys S).Nodup) :
    alGet k (parseLoop2 S []) = (alGet k S).map (fun i => i.invokes) := by
  rw [parseLoop2_eq, alGet_applyWrites, lastWrite_invWrites S k hnd]
  cases halg : alGet k S with
  | none => rfl
  | some i => rfl

theorem alGet_append {α : Type} (k : Str) (m1 m2 : AList α) :
    alGet k (m1 ++ m2) =
      match alGet k m1 with
      | some v => some v
      | none => alGet k m2 := by
  induction m1 with
  | nil => rfl
  | cons p rest ih =>
    obtain ⟨a, b⟩ := p
    rw [List.cons_append, alGet_pair, alGet_pair]
    by_cases hak : a = k
    · rw [if_pos hak, if_pos hak]
    · rw [if_neg hak, if_neg hak, ih]

theorem extAppend_nil_r (o : Option (List Str)) : extAppend o [] = o := rfl

theorem extAppend_assoc (o : Option (List Str)) (a b : List Str) :
    extAppend (extAppend o a) b = extAppend o (a ++ b) := by
  by_cases ha : a = []
  · subst ha
    rw [extAppend_nil_r, List.nil_append]
  · by_cases hb : b = []
    · subst hb
      rw [extAppend_nil_r, List.append_nil]
    · have hab : a ++ b ≠ [] := fun h => ha (List.append_eq_nil.mp h).1
      unfold extAppend
      rw [if_neg ha, if_neg hb, if_neg hab]
      simp only [Option.getD_some]
      rw [List.append_assoc]

theorem alGet_alAppendOne (t s k : Str) (b : AList (List Str)) :
    alGet k (alAppendOne t s b) =
      if t = k then some ((alGet k b).getD [] ++ [s]) else alGet k b := by
  unfold alAppendOne
  cases hg : alGet t b with
  | some l =>
    rw [alGet_alSet]
    by_cases htk : t = k
    · rw [htk] at hg
      rw [if_pos htk, if_pos htk, hg]
      rfl
    · rw [if_neg htk, if_neg htk]
  | none =>
    rw [alGet_append]
    by_cases htk : t = k
    · rw [htk] at hg
      rw [hg]
      dsimp only
      rw [alGet_pair, if_pos htk, if_pos htk]
      rfl
    · rw [if_neg htk]
      cases hkb : alGet k b with
      | some v => rfl
      | none =>
        dsimp only
        rw [alGet_pair, if_neg htk, alGet_nil]

theorem parseLoop3Inner_cons (src t : Str) (ts : List Str) (b : AList (List Str)) :
    parseLoop3Inner src (t :: ts) b = parseLoop3Inner src ts (alAppendOne t src b) := rfl

theorem srcsOf_pair (t s : Str) (ts : List Str) (rest : AList (List Str)) :
    srcsOf t ((s, ts) :: rest) =
      (ts.filter (fun x => x = t)).map (fun _ => s) ++ srcsOf t rest := rfl

theorem alGet_parseLoop3Inner (src : Str) (ts : List Str) (b : AList (List Str)) (k : Str) :
    alGet k (parseLoop3Inner src ts b) =
      extAppend (alGet k b) ((ts.filter (fun x => x = k)).map (fun _ => src)) := by
  induction ts generalizing b with
  | nil => rfl
  | cons t ts ih =>
    rw [parseLoop3Inner_cons, ih, alGet_alAppendOne, List.filter_cons]
    by_cases htk : t = k
    · rw [if_pos htk, if_pos (by simp [htk])]
      rw [List.map_cons]
      have h2 : extAppend (alGet k b) [src] = some ((alGet k b).getD [] ++ [src]) := by
        unfold extAppend
        rw [if_neg (by simp : ¬([src] : List Str) = [])]
      rw [← h2, extAppend_assoc]
      rfl
    · rw [if_neg htk, if_neg (by simp [htk])]

theorem parseLoop3_pair (s : Str) (ts : List Str) (rest b : AList (List Str)) :
    parseLoop3 ((s, ts) :: rest) b = parseLoop3 rest (parseLoop3Inner s ts b) := rfl

theorem alGet_parseLoop3 (I b : AList (List Str)) (k : Str) :
    alGet k (parseLoop3 I b) = extAppend (alGet k b) (srcsOf k I) := by
  induction I generalizing b with
  | nil => rfl
  | cons p rest ih =>
    obtain ⟨s, ts⟩ := p
    rw [parseLoop3_pair, ih, alGet_parseLoop3Inner, extAppend_assoc, srcsOf_pair]

theorem mem_srcsOf (I : AList (List Str)) (s t : Str) (ts : List Str)
    (h : alGet s I = some ts) (ht : t ∈ ts) : s ∈ srcsOf t I := by
  induction I with
  | nil => exact Option.noConfusion h
  | cons p rest ih =>
    obtain ⟨a, ls⟩ := p
    rw [alGet_pair] at h
    rw [srcsOf_pair]
    by_cases has : a = s
    · rw [if_pos has] at h
      have hls : ls = ts := Option.some.inj h
      subst hls
      refine List.mem_append.mpr (Or.inl ?_)
      refine List.mem_map.mpr ⟨t, ?_, has⟩
      exact List.mem_filter.mpr ⟨ht, by simp⟩
    · rw [if_neg has] at h
      exact List.mem_append.mpr (Or.inr (ih h))

/-! ## Output-stage lemmas -/

theorem emitRecords_cons (f : Option Str) (S : AList ServiceInfo) (n : Str) (ns : List Str) :
    emitRecords f S (n :: ns) =
      if skipByFilter f n then emitRecords f S ns
      else
        match alGet n S with
        | none => none
        | some info =>
          match emitRecords f S ns with
          | none => none
          | some rest => some (toRecord info :: rest) := rfl

theorem emitRecords_mem (f : Option Str) (S : AList ServiceInfo) (r : Record) :
    ∀ (names : List Str) (out : List Record), emitRecords f S names = some out → r ∈ out →
      ∃ n i, n ∈ names ∧ alGet n S = some i ∧ r = toRecord i := by
  intro names
  induction names with
  | nil =>
    intro out h hr
    rw [← Option.some.inj h] at hr
    exact absurd hr (List.not_mem_nil r)
  | cons n ns ih =>
    intro out h hr
    rw [emitRecords_cons] at h
    by_cases hskip : skipByFilter f n
    · rw [if_pos hskip] at h
      obtain ⟨n', i, h1, h2, h3⟩ := ih out h hr
      exact ⟨n', i, List.mem_cons_of_mem _ h1, h2, h3⟩
    · rw [if_neg hskip] at h
      cases hget : alGet n S with
      | none => rw [hget] at h; exact Option.noConfusion h
      | some info =>
        rw [hget] at h
        cases hrest : emitRecords f S ns with
        | none => rw [hrest] at h; exact Option.noConfusion h
        | some rest =>
          rw [hrest] at h
          rw [← Option.some.inj h] at hr
          rcases List.mem_cons.mp hr with h3 | h3
          · exact ⟨n, info, List.mem_cons_self _ _, hget, h3⟩
          · obtain ⟨n', i, h4, h5, h6⟩ := ih rest hrest h3
            exact ⟨n', i, List.mem_cons_of_mem _ h4, h5, h6⟩

theorem emitRecords_names (f : Option Str) (S : AList ServiceInfo) (hok : NamesOk S) :
    ∀ (names : List Str) (out : List Record), emitRecords f S names = some out →
      out.map (fun r => r.name) = names.filter (fun n => !skipByFilter f n) := by
  intro names
  induction names with
  | nil =>
    intro out h
    rw [← Option.some.inj h]
    rfl
  | cons n ns ih =>
    intro out h
    rw [emitRecords_cons] at h
    rw [List.filter_cons]
    by_cases hskip : skipByFilter f n
    · rw [if_pos hskip] at h
      rw [ih out h, if_neg (by rw [hskip]; simp)]
    · rw [if_neg hskip] at h
      cases hget : alGet n S with
      | none => rw [hget] at h; exact Option.noConfusion h
      | some info =>
        rw [hget] at h
        cases hrest : emitRecords f S ns with
        | none => rw [hrest] at h; exact Option.noConfusion h
        | some rest =>
          rw [hrest] at h
          rw [← Option.some.inj h]
          rw [if_pos (by rw [Bool.eq_false_iff.mpr hskip]; simp)]
          rw [List.map_cons, ih rest hrest]
          have hin : info.name = n := hok (n, info) (alGet_mem n info S hget)
          show info.name :: _ = n :: _
          rw [hin]

theorem pySorted_sorted (l : List Str) :
    List.Sorted (fun a b : Str => a ≤ b) (pySorted l) :=
  List.sorted_insertionSort _ l

theorem pySorted_perm (l : List Str) : (pySorted l).Perm l :=
  List.perm_insertionSort _ l

theorem pySorted_congr (a b : List Str) (h : a.Perm b) : pySorted a = pySorted b :=
  List.eq_of_perm_of_sorted ((pySorted_perm a).trans (h.trans (pySorted_perm b).symm))
    (pySorted_sorted a) (pySorted_sorted b)

theorem toRecord_dup (i : ServiceInfo) :
    toRecord { i with invoked_by := i.invoked_by ++ i.invoked_by }
      = dupInvokedBy (toRecord i) := by
  unfold toRecord dupInvokedBy
  have h2 : pySorted (i.invoked_by ++ i.invoked_by)
      = pySorted (pySorted i.invoked_by ++ pySorted i.invoked_by) :=
    pySorted_congr _ _
      (List.Perm.append (pySorted_perm i.invoked_by).symm (pySorted_perm i.invoked_by).symm)
  rw [h2]

theorem emitRecords_map_dup (f : Option Str) (Sa Sb : AList ServiceInfo)
    (hrel : ∀ n, alGet n Sb =
      (alGet n Sa).map (fun i => { i with invoked_by := i.invoked_by ++ i.invoked_by })) :
    ∀ names : List Str,
      emitRecords f Sb names = (emitRecords f Sa names).map (List.map dupInvokedBy) := by
  intro names
  induction names with
  | nil => rfl
  | cons n ns ih =>
    rw [emitRecords_cons, emitRecords_cons]
    by_cases hskip : skipByFilter f n
    · rw [if_pos hskip, if_pos hskip, ih]
    · rw [if_neg hskip, if_neg hskip]
      have hb := hrel n
      cases ha : alGet n Sa with
      | none =>
        rw [ha] at hb
        rw [hb]
        rfl
      | some i =>
        rw [ha] at hb
        rw [hb]
        dsimp only
        rw [ih]
        cases hrest : emitRecords f Sa ns with
        | none => rfl
        | some rest =>
          dsimp only [Option.map_some']
          rw [toRecord_dup]
          rfl

/-! ## Unfolding lemmas for parse and get_info -/

theorem Generator.parse_eq (ctx : Ctx) (pfx : Str) (g : Generator) :
    g.parse ctx pfx =
      match parseLoop1 ctx pfx g.service_store_services g.services with
      | none => none
      | some services1 =>
        some { g with
          services :=
            parseLoop4 (parseLoop3 (parseLoop2 services1 g.invokes) g.invoked_by) services1
          invokes := parseLoop2 services1 g.invokes
          invoked_by := parseLoop3 (parseLoop2 services1 g.invokes) g.invoked_by } := rfl

theorem Generator.get_info_eq (ctx : Ctx) (pfx : Str) (g : Generator) :
    g.get_info ctx pfx =
      match g.parse ctx pfx with
      | none => none
      | some g' =>
        match emitRecords g'.filter g'.services (pySorted (g'.services.map Prod.fst)) with
        | none => none
        | some out => some (out, g') := rfl

theorem parse_mkGenerator_some (ctx : Ctx) (pfx : Str) (reg : List (Str × Details))
    (filt : Option Str) (g' : Generator)
    (h : (mkGenerator reg filt).parse ctx pfx = some g') :
    ∃ ws, writesOf ctx pfx reg = some ws ∧
      g' = { service_store_services := reg
             filter := filt
             services := parseLoop4
               (parseLoop3 (parseLoop2 (applyWrites ws []) []) []) (applyWrites ws [])
             invokes := parseLoop2 (applyWrites ws []) []
             invoked_by := parseLoop3 (parseLoop2 (applyWrites ws []) []) [] } := by
  rw [Generator.parse_eq] at h
  dsimp only [mkGenerator] at h
  rw [parseLoop1_eq] at h
  cases hws : writesOf ctx pfx reg with
  | none =>
    rw [hws] at h
    exact Option.noConfusion h
  | some ws =>
    rw [hws] at h
    dsimp only [Option.map_some'] at h
    exact ⟨ws, rfl, (Option.some.inj h).symm⟩

theorem get_info_some (ctx : Ctx) (pfx : Str) (g : Generator) (out : List Record)
    (g' : Generator) (h : g.get_info ctx pfx = some (out, g')) :
    g.parse ctx pfx = some g'
    ∧ emitRecords g'.filter g'.services (pySorted (g'.services.map Prod.fst)) = some out := by
  rw [Generator.get_info_eq] at h
  cases hp : g.parse ctx pfx with
  | none => rw [hp] at h; exact Option.noConfusion h
  | some gq =>
    rw [hp] at h
    dsimp only at h
    cases hemit : emitRecords gq.filter gq.services (pySorted (gq.services.map Prod.fst)) with
    | none => rw [hemit] at h; exact Option.noConfusion h
    | some o =>
      rw [hemit] at h
      dsimp only at h
      have h2 := Option.some.inj h
      have ho : o = out := congrArg Prod.fst h2
      have hg : gq = g' := congrArg Prod.snd h2
      subst ho
      subst hg
      exact ⟨rfl, hemit⟩

/-! ## Claim theorems over the classifier and descriptor -/

/-- C6: a parameter marked `AsIs` is always classified with the dialect's
default (type, subtype) pair, even when the boolean and integer naming
heuristics would both match its name — the `AsIs` test runs first. -/
theorem c6_asis_precedence (isBool : Param → Str → Bool) (isInt : Str → Bool)
    (info : ApiSpecInfo) (nm : Str)
    (hb : isBool (Param.asIs nm) nm = true) (hi : isInt nm = true) :
    classifyParam isBool isInt info (Param.asIs nm) = info.DEFAULT := rfl

/-- Witness for C6: heuristics that match every name still lose to `AsIs`. -/
theorem c6_witness :
    alwaysBool (Param.asIs nmSvc) nmSvc = true ∧ alwaysInt nmSvc = true
      ∧ classifyParam alwaysBool alwaysInt dialect0 (Param.asIs nmSvc) = dialect0.DEFAULT :=
  ⟨rfl, rfl, c6_asis_precedence alwaysBool alwaysInt dialect0 nmSvc rfl rfl⟩

/-- C2 fails on the code: a sequence declaration with a repeated target
keeps the duplicate — `invokes = ['foo', 'foo']` produces a descriptor
whose invokes lists `foo` twice, not at most once. -/
theorem c2_counterexample :
    (mkServiceInfo ctx0 nmSvc clsDup).map (fun i => i.invokes) = some [sFoo, sFoo]
      ∧ (mkServiceInfo ctx0 nmSvc clsDup).map (fun i => i.invokes.count sFoo) = some 2 := by
  constructor
  · decide
  · decide

/-- C2 amended: a truthy sequence declaration contributes all its elements
in declaration order, duplicates included; a truthy single string yields
exactly one element; an absent or falsy declaration yields the empty
list. -/
theorem c2_invokes_amended (ctx : Ctx) (nm : Str) (cls : ServiceClass) (i : ServiceInfo)
    (h : mkServiceInfo ctx nm cls = some i) :
    (cls.invokes = .absent → i.invokes = [])
      ∧ (∀ s, cls.invokes = .str s → i.invokes = if s = [] then [] else [s])
      ∧ (∀ l, cls.invokes = .pylist l → i.invokes = if l = [] then [] else l) := by
  have hi := (mkServiceInfo_some ctx nm cls i h).2.2.2.1
  refine ⟨?_, ?_, ?_⟩
  · intro hd
    rw [hi, hd]
    rfl
  · intro s hd
    rw [hi, hd]
    rfl
  · intro l hd
    rw [hi, hd]
    rfl

/-- Witness for C2's amended claim at the duplicate declaration. -/
theorem c2_witness :
    mkServiceInfo ctx0 nmSvc clsDup = some infoDup ∧ infoDup.invokes = [sFoo, sFoo] := by
  refine ⟨by decide, ?_⟩
  have h := (c2_invokes_amended ctx0 nmSvc clsDup infoDup (by decide)).2.2 [sFoo, sFoo] rfl
  rw [h]
  decide

/-! ## Claim theorems over the graph builder and query facade -/

/-- C4: graph closure — after one build pass over a fresh generator, if `B`
is in `A`'s invokes then `A` is in `B`'s invoked_by. -/
theorem c4_graph_closure (ctx : Ctx) (pfx : Str) (reg : List (Str × Details))
    (filt : Option Str) (g' : Generator) (A B : Str) (iA iB : ServiceInfo)
    (hp : (mkGenerator reg filt).parse ctx pfx = some g')
    (hA : alGet A g'.services = some iA) (hB : alGet B g'.services = some iB)
    (hmem : B ∈ iA.invokes) : A ∈ iB.invoked_by := by
  obtain ⟨ws, hws, hg⟩ := parse_mkGenerator_some ctx pfx reg filt g' hp
  subst hg
  dsimp only at hA hB
  have hnd : (alKeys (applyWrites ws ([] : AList ServiceInfo))).Nodup :=
    nodup_alKeys_applyWrites ws [] (by rw [alKeys_nil]; exact List.nodup_nil)
  rw [alGet_parseLoop4] at hA hB
  cases haS : alGet A (applyWrites ws []) with
  | none => rw [haS] at hA; exact Option.noConfusion hA
  | some iA0 =>
    rw [haS] at hA
    cases hbS : alGet B (applyWrites ws []) with
    | none => rw [hbS] at hB; exact Option.noConfusion hB
    | some iB0 =>
      rw [hbS] at hB
      have hiA := Option.some.inj hA
      have hiB := Option.some.inj hB
      have hmem0 : B ∈ iA0.invokes := by
        rw [← hiA] at hmem
        exact hmem
      have hI1A : alGet A (parseLoop2 (applyWrites ws []) []) = some iA0.invokes := by
        rw [alGet_parseLoop2_nil _ A hnd, haS]
        rfl
      have hsrc : A ∈ srcsOf B (parseLoop2 (applyWrites ws []) []) :=
        mem_srcsOf _ A B iA0.invokes hI1A hmem0
      have hB1B : alGet B (parseLoop3 (parseLoop2 (applyWrites ws []) []) [])
          = some (srcsOf B (parseLoop2 (applyWrites ws []) [])) := by
        rw [alGet_parseLoop3, alGet_nil]
        unfold extAppend
        rw [if_neg (fun h0 : srcsOf B (parseLoop2 (applyWrites ws []) []) = [] =>
          List.not_mem_nil A (h0 ▸ hsrc))]
        rfl
      rw [← hiB]
      show A ∈ (alGet B (parseLoop3 (parseLoop2 (applyWrites ws []) []) [])).getD []
      rw [hB1B]
      exact hsrc

/-- Witness for C4 over the two-service registry `reg0`. -/
theorem c4_witness :
    (mkGenerator reg0 none).parse ctx0 pz = some g4
      ∧ alGet nmA g4.services = some iA4 ∧ alGet nmB g4.services = some iB4
      ∧ nmB ∈ iA4.invokes ∧ nmA ∈ iB4.invoked_by :=
  ⟨by decide, by decide, by decide, by decide,
    c4_graph_closure ctx0 pz reg0 none g4 nmA nmB iA4 iB4
      (by decide) (by decide) (by decide) (by decide)⟩

/-- C5: `get_info` with no filter returns records sorted lexicographically
by name, and within every record the invokes and invoked_by arrays are each
lexicographically sorted, for every registry. -/
theorem c5_sorted_output (ctx : Ctx) (pfx : Str) (reg : List (Str × Details))
    (out : List Record) (g' : Generator)
    (h : (mkGenerator reg none).get_info ctx pfx = some (out, g')) :
    List.Sorted (fun a b : Str => a ≤ b) (out.map (fun r => r.name))
      ∧ ∀ r ∈ out, List.Sorted (fun a b : Str => a ≤ b) r.invokes
          ∧ List.Sorted (fun a b : Str => a ≤ b) r.invoked_by := by
  obtain ⟨hp, hemit⟩ := get_info_some ctx pfx _ out g' h
  obtain ⟨ws, hws, hg⟩ := parse_mkGenerator_some ctx pfx reg none g' hp
  have hok : NamesOk g'.services := by
    rw [hg]
    exact namesOk_parseLoop4 _ _
      (namesOk_applyWrites ws [] (writesOf_namesOk ctx pfx reg ws hws)
        (fun p hp0 => absurd hp0 (List.not_mem_nil p)))
  constructor
  · rw [emitRecords_names g'.filter g'.services hok _ out hemit]
    exact List.Pairwise.sublist (List.filter_sublist _) (pySorted_sorted _)
  · intro r hr
    obtain ⟨n, i, _, _, hrec⟩ := emitRecords_mem g'.filter g'.services r _ out hemit hr
    rw [hrec]
    exact ⟨pySorted_sorted _, pySorted_sorted _⟩

/-- Witness for C5 over `reg0`. -/
theorem c5_witness :
    (mkGenerator reg0 none).get_info ctx0 pz = some (o5c, g5c)
      ∧ List.Sorted (fun a b : Str => a ≤ b) (o5c.map (fun r => r.name))
      ∧ ∀ r ∈ o5c, List.Sorted (fun a b : Str => a ≤ b) r.invokes
          ∧ List.Sorted (fun a b : Str => a ≤ b) r.invoked_by :=
  ⟨by decide, (c5_sorted_output ctx0 pz reg0 o5c g5c (by decide)).1,
    (c5_sorted_output ctx0 pz reg0 o5c g5c (by decide)).2⟩

/-- C8: every record returned by `get_info` stems from a registry entry
whose implementation identifier does not start with the ignore prefix; an
entry that does start with it never contributes a graph key or a record
(its name can still appear inside other records' edge arrays). -/
theorem c8_ignored_prefix_excluded (ctx : Ctx) (pfx : Str) (reg : List (Str × Details))
    (filt : Option Str) (out : List Record) (g' : Generator)
    (h : (mkGenerator reg filt).get_info ctx pfx = some (out, g')) :
    ∀ r ∈ out, ∃ q, q ∈ reg ∧ List.isPrefixOf pfx q.1 = false
      ∧ (q.2 : Details).name = r.name := by
  obtain ⟨hp, hemit⟩ := get_info_some ctx pfx _ out g' h
  obtain ⟨ws, hws, hg⟩ := parse_mkGenerator_some ctx pfx reg filt g' hp
  have hok : NamesOk g'.services := by
    rw [hg]
    exact namesOk_parseLoop4 _ _
      (namesOk_applyWrites ws [] (writesOf_namesOk ctx pfx reg ws hws)
        (fun p hp0 => absurd hp0 (List.not_mem_nil p)))
  intro r hr
  obtain ⟨n, i, hn, hget, hrec⟩ := emitRecords_mem g'.filter g'.services r _ out hemit hr
  have hname : i.name = n := hok (n, i) (alGet_mem n i g'.services hget)
  have hrn : r.name = n := by
    rw [hrec]
    exact hname
  have hnk : n ∈ alKeys g'.services := (pySorted_perm _).mem_iff.mp hn
  have hnw : n ∈ ws.map Prod.fst := by
    rw [hg] at hnk
    dsimp only at hnk
    rw [alKeys_parseLoop4] at hnk
    rcases (mem_alKeys_applyWrites ws [] n).mp hnk with hcase | hcase
    · exact hcase
    · rw [alKeys_nil] at hcase
      exact absurd hcase (List.not_mem_nil n)
  obtain ⟨q, hq1, hq2, hq3⟩ := writesOf_key_source ctx pfx reg ws n hws hnw
  refine ⟨q, hq1, hq2, ?_⟩
  rw [hrn]
  exact hq3

/-- Witness for C8 over `regDangling`: the `zato.b` entry is skipped, so
only `a` is emitted, yet the skipped entry's name `b` still shows up inside
`a`'s invokes as a dangling edge. -/
theorem c8_witness :
    (mkGenerator regDangling none).get_info ctx0 pz = some (outDangling, g8c)
      ∧ (∀ r ∈ outDangling, ∃ q, q ∈ regDangling ∧ List.isPrefixOf pz q.1 = false
          ∧ (q.2 : Details).name = r.name)
      ∧ outDangling.map (fun r => (r.name, r.invokes)) = [(nmA, [nmB])] :=
  ⟨by decide,
    c8_ignored_prefix_excluded ctx0 pz regDangling none outDangling g8c (by decide),
    by decide⟩

/-- C10: a generator constructed with the empty string as filter returns
exactly the records a filterless generator returns — the filter test only
applies to a truthy filter. -/
theorem c10_empty_filter_matches_none (ctx : Ctx) (pfx : Str)
    (reg : List (Str × Details)) :
    ((mkGenerator reg (some [])).get_info ctx pfx).map Prod.fst
      = ((mkGenerator reg none).get_info ctx pfx).map Prod.fst := by
  have hparse : ∀ filt : Option Str, (mkGenerator reg filt).parse ctx pfx
      = ((mkGenerator reg none).parse ctx pfx).map (fun g => { g with filter := filt }) := by
    intro filt
    rw [Generator.parse_eq, Generator.parse_eq]
    dsimp only [mkGenerator]
    cases parseLoop1 ctx pfx reg [] with
    | none => rfl
    | some S1 => rfl
  have hemit : ∀ (S : AList ServiceInfo) (names : List Str),
      emitRecords (some []) S names = emitRecords none S names := by
    intro S names
    induction names with
    | nil => rfl
    | cons n ns ih =>
      have hsk : skipByFilter (some ([] : Str)) n = skipByFilter none n := rfl
      rw [emitRecords_cons, emitRecords_cons, hsk, ih]
  rw [Generator.get_info_eq, Generator.get_info_eq, hparse (some [])]
  cases hp : (mkGenerator reg none).parse ctx pfx with
  | none => rfl
  | some gP =>
    dsimp only [Option.map_some']
    have hf : gP.filter = none := by
      obtain ⟨ws, hws, hg⟩ := parse_mkGenerator_some ctx pfx reg none gP hp
      rw [hg]
    show (match emitRecords (some []) gP.services (pySorted (gP.services.map Prod.fst)) with
      | none => none
      | some out => some (out, { gP with filter := some [] })).map Prod.fst = _
    rw [hemit, hf]
    cases emitRecords none gP.services (pySorted (gP.services.map Prod.fst)) with
    | none => rfl
    | some out => rfl

/-- C1 fails on the code: over `reg0`, the second `get_info` call on the
same generator returns different records than the first — the invoked_by
accumulator persists across calls and is observable. -/
theorem c1_counterexample :
    ¬((runTwice ctx0 pz reg0).map Prod.fst = (runTwice ctx0 pz reg0).map Prod.snd) := by
  decide

/-- C1 amended: on a second `get_info` call over the same registry, the
services and invokes dictionaries are rebuilt identically, but the
persisted invoked_by accumulator receives every reverse edge a second
time: each record of the second call equals the first call's record with
its invoked_by array doubled (so the calls agree exactly when no retained
service declares any invokes). -/
theorem c1_second_call_doubles (ctx : Ctx) (pfx : Str) (reg : List (Str × Details))
    (filt : Option Str) (o1 o2 : List Record) (g1 g2 : Generator)
    (h1 : (mkGenerator reg filt).get_info ctx pfx = some (o1, g1))
    (h2 : g1.get_info ctx pfx = some (o2, g2)) :
    o2 = o1.map dupInvokedBy := by
  obtain ⟨hp1, hemit1⟩ := get_info_some ctx pfx _ o1 g1 h1
  obtain ⟨ws, hws, hg1⟩ := parse_mkGenerator_some ctx pfx reg filt g1 hp1
  obtain ⟨hp2, hemit2⟩ := get_info_some ctx pfx _ o2 g2 h2
  have hparse2 : g1.parse ctx pfx =
      some { service_store_services := reg
             filter := filt
             services := parseLoop4
               (parseLoop3 (parseLoop2 (applyWrites ws []) [])
                 (parseLoop3 (parseLoop2 (applyWrites ws []) []) []))
               (applyWrites ws [])
             invokes := parseLoop2 (applyWrites ws []) []
             invoked_by := parseLoop3 (parseLoop2 (applyWrites ws []) [])
               (parseLoop3 (parseLoop2 (applyWrites ws []) []) []) } := by
    rw [hg1, Generator.parse_eq]
    dsimp only
    rw [parseLoop1_eq, hws]
    dsimp only [Option.map_some']
    have hS : applyWrites ws
        (parseLoop4 (parseLoop3 (parseLoop2 (applyWrites ws []) []) [])
          (applyWrites ws [])) = applyWrites ws [] := by
      apply applyWrites_replay
      rw [alKeys_parseLoop4]
    rw [hS]
    have hI : parseLoop2 (applyWrites ws []) (parseLoop2 (applyWrites ws []) [])
        = parseLoop2 (applyWrites ws []) [] := by
      simp only [parseLoop2_eq]
      exact applyWrites_replay _ _ rfl
    rw [hI]
  rw [hparse2] at hp2
  have hg2 := (Option.some.inj hp2).symm
  rw [hg2] at hemit2
  rw [hg1] at hemit1
  dsimp only at hemit1 hemit2
  have hkeys2 : ((parseLoop4
        (parseLoop3 (parseLoop2 (applyWrites ws []) [])
          (parseLoop3 (parseLoop2 (applyWrites ws []) []) []))
        (applyWrites ws [])).map Prod.fst : List Str)
      = (parseLoop4 (parseLoop3 (parseLoop2 (applyWrites ws []) []) [])
          (applyWrites ws [])).map Prod.fst := by
    have ha := alKeys_parseLoop4
      (parseLoop3 (parseLoop2 (applyWrites ws []) [])
        (parseLoop3 (parseLoop2 (applyWrites ws []) []) [])) (applyWrites ws ([] : AList ServiceInfo))
    have hb := alKeys_parseLoop4
      (parseLoop3 (parseLoop2 (applyWrites ws []) []) []) (applyWrites ws ([] : AList ServiceInfo))
    unfold alKeys at ha hb
    exact ha.trans hb.symm
  have hrel : ∀ n, alGet n (parseLoop4
        (parseLoop3 (parseLoop2 (applyWrites ws []) [])
          (parseLoop3 (parseLoop2 (applyWrites ws []) []) []))
        (applyWrites ws []))
      = (alGet n (parseLoop4 (parseLoop3 (parseLoop2 (applyWrites ws []) []) [])
          (applyWrites ws []))).map
          (fun i => { i with invoked_by := i.invoked_by ++ i.invoked_by }) := by
    intro n
    rw [alGet_parseLoop4, alGet_parseLoop4]
    cases hn : alGet n (applyWrites ws ([] : AList ServiceInfo)) with
    | none => rfl
    | some i0 =>
      dsimp only [Option.map_some']
      have hdouble : (alGet n (parseLoop3 (parseLoop2 (applyWrites ws []) [])
            (parseLoop3 (parseLoop2 (applyWrites ws []) []) []))).getD []
          = (alGet n (parseLoop3 (parseLoop2 (applyWrites ws []) []) [])).getD []
            ++ (alGet n (parseLoop3 (parseLoop2 (applyWrites ws []) []) [])).getD [] := by
        rw [alGet_parseLoop3, alGet_parseLoop3, alGet_nil]
        cases hsrc : srcsOf n (parseLoop2 (applyWrites ws []) []) with
        | nil => rfl
        | cons x xs => rfl
      rw [hdouble]
  rw [hkeys2, emitRecords_map_dup filt _ _ hrel, hemit1] at hemit2
  exact (Option.some.inj hemit2).symm

/-- Witness for C1's amended claim over `reg0`: the second call's records
equal the first call's with doubled invoked_by arrays. -/
theorem c1_witness :
    (mkGenerator reg0 none).get_info ctx0 pz = some (o1c, g1c)
      ∧ g1c.get_info ctx0 pz = some (o2c, g2c)
      ∧ o2c = o1c.map dupInvokedBy :=
  ⟨by decide, by decide,
    c1_second_call_doubles ctx0 pz reg0 none o1c o2c g1c g2c (by decide) (by decide)⟩

end Apispec
